import Mathlib

/-!
git-pipe: verification of the control-plane specification.

Shallow embedding of the git-pipe repository (Go) into Lean 4, covering the
components referenced by the frozen claims: the JWT authorization middleware
and token extraction (`router/auth_jwt.go`), the upstream selectors
(`router/backend.go` and `core/ingress/embedded/proxy.go`), the
single-container packaging driver's service enumeration
(`packs/dckr/daemon.go`), the daemon launcher (`core/v1/launcher.go`), the
service registry (`core/v1` registry), and the volume backup/restore
pipeline (`core/storage` and `backup/filebackup`).

Go strings are modelled as `List Char`; Go maps as association lists (with a
`none` case where the Go code leaves a map `nil`); external collaborators
(the JWT library, the container runtime, the backup backend, the cryptor)
are oracle parameters, as the specification treats them as out of scope.
-/

namespace GitPipe

/-! ## Go strings -/

/-- A Go string, modelled as its character sequence. -/
abbrev GoStr := List Char

/-- Whitespace recognised by Go `strings.TrimSpace` (ASCII subset). -/
def isGoSpace (c : Char) : Bool :=
  c = ' ' || c = '\t' || c = '\n' || c = '\r'

/-- Go `strings.TrimSpace`: trim leading and trailing whitespace. -/
def goTrimSpace (s : GoStr) : GoStr :=
  ((s.dropWhile isGoSpace).reverse.dropWhile isGoSpace).reverse

/-- Go `strings.SplitN(s, " ", 2)`: `none` when `s` contains no space (one
part), `some (before, after)` when it splits at the first space. -/
def goSplitTwoSp : GoStr → Option (GoStr × GoStr)
  | [] => none
  | c :: rest =>
    if c = ' ' then some ([], rest)
    else
      match goSplitTwoSp rest with
      | none => none
      | some (a, b) => some (c :: a, b)

/-- Go `strings.EqualFold` (simple case folding). -/
def goEqualFold (a b : GoStr) : Bool :=
  a.map Char.toLower == b.map Char.toLower

/-- Go `strings.HasSuffix`. -/
def goHasSuffix (s suffix : GoStr) : Bool :=
  suffix.isSuffixOf s

/-! ## `router/auth_jwt.go`: token extraction and the JWT middleware -/

/-- The literal `"bearer"` compared against the authorization scheme. -/
def bearerChars : GoStr := "bearer".data

/-- Function `getToken` (router/auth_jwt.go): read the bearer token from the
`Authorization` header, falling back to the `token` query parameter only
when the header is empty. -/
def getToken (authHeader queryToken : GoStr) : GoStr :=
  if authHeader = [] then queryToken
  else
    match goSplitTwoSp (goTrimSpace authHeader) with
    | none => []
    | some (p1, p2) =>
      let kind := goTrimSpace p1
      let token := goTrimSpace p2
      if goEqualFold kind bearerChars then token else []

/-- Claims carried by a token: `aud`, `sub` and the extended `methods` list
(`JWTClaims` in router/auth_jwt.go). -/
structure JWTClaims where
  audience : GoStr
  subject : GoStr
  methods : List GoStr
deriving DecidableEq

/-- Signing method of a token; the middleware's key function accepts only
the HMAC family. -/
inductive SigningMethod
  | hmac
  | other
deriving DecidableEq

/-- What the JWT library finds inside a syntactically valid token: its
signing method, its claims, and whether its signature verifies under the
configured shared secret. -/
structure TokenData where
  method : SigningMethod
  claims : JWTClaims
  signatureValid : Bool
deriving DecidableEq

/-- Errors surfaced by `jwt.ParseWithClaims` under the middleware's key
function. -/
inductive JWTParseError
  | malformed
  | signingMethodUnsupported
  | badSignature
deriving DecidableEq

/-- Function `jwt.ParseWithClaims` with the middleware's key function: reject tokens
the library cannot parse, reject signing methods outside the HMAC family
(`ErrSigningMethodUnsupported`), reject signatures that do not verify under
the shared secret; otherwise yield the claims. The library itself is an
external collaborator, abstracted by the `world` oracle mapping token text
to its parsed content. -/
def parseWithClaims (world : GoStr → Option TokenData) (token : GoStr) :
    Except JWTParseError JWTClaims :=
  match world token with
  | none => .error .malformed
  | some td =>
    match td.method with
    | .hmac =>
      if td.signatureValid then .ok td.claims else .error .badSignature
    | .other => .error .signingMethodUnsupported

/-- Incoming request data consulted by the JWT middleware. -/
structure JWTRequest where
  authHeader : GoStr
  queryToken : GoStr
  method : GoStr
deriving DecidableEq

/-- Outcome of the JWT route handler: reply 401 and abort, reply 403 and
abort, or set `X-User` and let the chain continue. -/
inductive JWTOutcome
  | unauthorized
  | forbidden
  | passed (xUser : GoStr)
deriving DecidableEq

/-- Function `containsFold` (router/auth_jwt.go): case-insensitive membership. -/
def containsFold (list : List GoStr) (value : GoStr) : Bool :=
  list.any fun k => goEqualFold k value

/-- The `JWT` route handler (router/auth_jwt.go): extract the token, parse
and verify it, require a non-empty `aud`, check `sub` against the route's
group and `methods` against the request method, and on success record
`aud` as the `X-User` header. -/
def JWT (world : GoStr → Option TokenData) (routeGroup : GoStr)
    (req : JWTRequest) : JWTOutcome :=
  let token := getToken req.authHeader req.queryToken
  if token = [] then .unauthorized
  else
    match parseWithClaims world token with
    | .error _ => .unauthorized
    | .ok meta =>
      if meta.audience = [] then .unauthorized
      else if meta.subject ≠ [] ∧ ¬goEqualFold routeGroup meta.subject then
        .forbidden
      else if meta.methods ≠ [] ∧ ¬containsFold meta.methods req.method then
        .forbidden
      else .passed meta.audience

/-! ## Upstream selectors -/

/-- How a routed request ends: an error reply written by the middleware
chain itself (no upstream contacted), or a reverse-proxied request to a
selected upstream address carrying the `X-User` value set earlier. -/
inductive ServeOutcome
  | reply (status : Nat)
  | proxied (addr : GoStr) (xUser : GoStr)
deriving DecidableEq

/-- Function `Random.ServeRoute` (router/backend.go): with no addresses reply 502
(`backend address not found`) and abort; otherwise pick the address at
`rand.Int() % len(addresses)` and reverse-proxy. `randVal` models the
non-negative value returned by `rand.Int()`. -/
def randomServeRoute (addresses : List GoStr) (randVal : Nat)
    (xUser : GoStr) : ServeOutcome :=
  if addresses.length = 0 then .reply 502
  else .proxied (addresses.getD (randVal % addresses.length) []) xUser

/-- Function `Proxy` (core/ingress/embedded/proxy.go) address selection:
`record.Record.Addresses[rand.Int()%len(record.Record.Addresses)]` with no
emptiness check. In Go, `% 0` is an integer division by zero and panics;
the panic is the `none` case. -/
def proxySelectAddress (addresses : List GoStr) (randVal : Nat) :
    Option GoStr :=
  if addresses.length = 0 then none
  else some (addresses.getD (randVal % addresses.length) [])

/-- The middleware chain assembled for a JWT-protected route: the `JWT`
handler runs first and the upstream selector (`Random`) runs only when the
chain was not aborted; an aborted chain replies with the status the
aborting handler wrote. -/
def serveJWTChain (world : GoStr → Option TokenData) (routeGroup : GoStr)
    (addresses : List GoStr) (randVal : Nat) (req : JWTRequest) :
    ServeOutcome :=
  match JWT world routeGroup req with
  | .unauthorized => .reply 401
  | .forbidden => .reply 403
  | .passed xUser => randomServeRoute addresses randVal xUser

/-- The JWT verifier as the specification words it: a missing or malformed
token, a signing method outside the HMAC family, a signature that does not
verify under the shared secret, or an empty `aud` claim is answered 401; a
verified token whose non-empty `sub` is not case-insensitively equal to the
route's group, or whose non-empty `methods` does not case-insensitively
contain the request method, is answered 403; otherwise `X-User` is set to
`aud` and the chain continues. -/
def jwtSpecOutcome (world : GoStr → Option TokenData) (routeGroup : GoStr)
    (req : JWTRequest) : JWTOutcome :=
  let token := getToken req.authHeader req.queryToken
  if token = [] then .unauthorized
  else
    match world token with
    | none => .unauthorized
    | some td =>
      if td.method ≠ .hmac then .unauthorized
      else if ¬td.signatureValid then .unauthorized
      else if td.claims.audience = [] then .unauthorized
      else if td.claims.subject ≠ [] ∧
          ¬goEqualFold routeGroup td.claims.subject then .forbidden
      else if td.claims.methods ≠ [] ∧
          ¬containsFold td.claims.methods req.method then .forbidden
      else .passed td.claims.audience

/-- The `Authorization` header is in two-part bearer form: the trimmed
header splits at a space into a scheme case-insensitively equal to
`bearer`, followed by the token. -/
def isBearerHeader (auth : GoStr) : Bool :=
  match goSplitTwoSp (goTrimSpace auth) with
  | none => false
  | some (p1, _) => goEqualFold (goTrimSpace p1) bearerChars

/-- Handler `JWT` agrees with the specification's case analysis. -/
theorem jwt_eq_spec (world : GoStr → Option TokenData) (routeGroup : GoStr)
    (req : JWTRequest) :
    JWT world routeGroup req = jwtSpecOutcome world routeGroup req := by
  cases h : getToken req.authHeader req.queryToken with
  | nil => simp [JWT, jwtSpecOutcome, h]
  | cons c rest =>
    cases hw : world (c :: rest) with
    | none => simp [JWT, jwtSpecOutcome, parseWithClaims, h, hw]
    | some td =>
      obtain ⟨m, claims, sig⟩ := td
      cases m <;> cases sig <;>
        simp [JWT, jwtSpecOutcome, parseWithClaims, h, hw]

/-- C5: for every request reaching the JWT verifier, a missing or malformed
token, a non-HMAC signing method, an unverifiable signature, or an empty
`aud` claim is answered 401 and the chain aborts; a verified token whose
non-empty `sub` is not case-insensitively equal to the route's group, or
whose non-empty `methods` does not case-insensitively contain the request
method, is answered 403 before any upstream is contacted; otherwise
`X-User` is set to the `aud` claim and the chain continues into the
upstream selector. Stated as: the handler equals the specification's case
analysis, and the assembled chain replies 401/403 without proxying exactly
in the specification's failure cases. -/
theorem claim5_jwt_verifier_cases (world : GoStr → Option TokenData)
    (routeGroup : GoStr) (addresses : List GoStr) (randVal : Nat)
    (req : JWTRequest) :
    JWT world routeGroup req = jwtSpecOutcome world routeGroup req ∧
    serveJWTChain world routeGroup addresses randVal req =
      (match jwtSpecOutcome world routeGroup req with
       | .unauthorized => .reply 401
       | .forbidden => .reply 403
       | .passed xUser => randomServeRoute addresses randVal xUser) := by
  refine ⟨jwt_eq_spec world routeGroup req, ?_⟩
  rw [serveJWTChain, jwt_eq_spec world routeGroup req]

/-- C10: a non-empty `Authorization` header that is not in two-part bearer
form makes the middleware treat the request as carrying no token and reply
401, even when a valid `token` query parameter is present; the query
parameter is consulted only when the header is empty. -/
theorem claim10_auth_header_precedence (auth : GoStr) (h : auth ≠ []) :
    (∀ q q' : GoStr, getToken auth q = getToken auth q') ∧
    (isBearerHeader auth = false →
      ∀ (q : GoStr) (world : GoStr → Option TokenData) (g m : GoStr),
        getToken auth q = [] ∧
        JWT world g ⟨auth, q, m⟩ = .unauthorized) := by
  constructor
  · intro q q'
    simp [getToken, h]
  · intro hb q world g m
    have hget : getToken auth q = [] := by
      rw [getToken, if_neg h]
      rw [isBearerHeader] at hb
      cases hs : goSplitTwoSp (goTrimSpace auth) with
      | none => rfl
      | some p =>
        obtain ⟨p1, p2⟩ := p
        rw [hs] at hb
        have hb2 : goEqualFold (goTrimSpace p1) bearerChars = false := hb
        simp [hb2]
    exact ⟨hget, by simp [JWT, hget]⟩

/-- C10 witness: the header `Token abc` is non-empty and not bearer-form;
with a query parameter naming a token the oracle accepts as fully valid,
the middleware still replies 401. -/
theorem claim10_auth_header_precedence_witness :
    (getToken "Token abc".data "good".data =
      getToken "Token abc".data "other".data) ∧
    (getToken "Token abc".data "good".data = [] ∧
      JWT (fun _ => some ⟨.hmac, ⟨"client1".data, [], []⟩, true⟩)
        "my-app".data ⟨"Token abc".data, "good".data, "GET".data⟩ =
          .unauthorized) :=
  ⟨(claim10_auth_header_precedence "Token abc".data (by decide)).1 _ _,
   (claim10_auth_header_precedence "Token abc".data (by decide)).2
     (by decide) _ _ _ _⟩

/-- C6: the router package's `Random` selector replies 502 on an empty
address list and proxies in-range otherwise, but the embedded `Proxy`
selector cited by the same claim computes `rand.Int() % 0` on an empty
address list, which panics in Go (`none` here) instead of replying 502:
evaluated at the failing input, the two selectors disagree. -/
theorem claim6_selector_empty_addresses :
    randomServeRoute [] 12345 "client1".data = .reply 502 ∧
    randomServeRoute ["10.0.0.7:80".data] 12345 "client1".data =
      .proxied "10.0.0.7:80".data "client1".data ∧
    proxySelectAddress [] 12345 = none ∧
    proxySelectAddress ["10.0.0.7:80".data] 12345 =
      some "10.0.0.7:80".data := by
  decide

/-! ## `packs/dckr/daemon.go`: single-container service enumeration -/

/-- A service produced by the single-container driver: namespace (the
daemon name), service name, and the single upstream address. -/
structure DckrService where
  nspace : String
  name : String
  address : String
deriving DecidableEq

/-- Function `portsPriority` (packs/dckr/daemon.go): smaller value means higher
priority; only 80 and 8080 are prioritised. -/
def portsPriority (port : Int) : Option Nat :=
  if port = 80 then some 1 else if port = 8080 then some 2 else none

/-- The loop body of `findRootPort`: iterate over indexed ports keeping the
best (priority, index) pair, starting from priority 999 and index 0. -/
def findRootLoop : List (Nat × Int) → Nat → Nat → Nat
  | [], _, best => best
  | (i, port) :: rest, bestPriority, best =>
    match portsPriority port with
    | some p =>
      if p < bestPriority then findRootLoop rest p i
      else findRootLoop rest bestPriority best
    | none => findRootLoop rest bestPriority best

/-- Function `findRootPort` (packs/dckr/daemon.go): `-1` for no ports, otherwise the
index of the best-priority port (first index wins ties; index 0 when no
port is prioritised). -/
def findRootPort (ports : List Int) : Int :=
  if ports.length = 0 then -1
  else (findRootLoop ports.enum 999 0 : Nat)

/-- Function `dockerDaemon.exposedServices` (packs/dckr/daemon.go): one service per
exposed port named after the port, plus — whenever `findRootPort` yields an
index — a bare-namespace service at the root port's address. -/
def exposedServices (address : String) (ports : List Int)
    (nspace : String) : List DckrService :=
  let services := ports.map fun port =>
    ⟨nspace, toString port, address ++ ":" ++ toString port⟩
  let idx := findRootPort ports
  if idx ≠ -1 then
    services ++ [⟨nspace, "", (services.getD idx.toNat ⟨"", "", ""⟩).address⟩]
  else services

/-- The primary port as the specification words it: 80 when exposed, else
8080 when exposed, else the first enumerated port. -/
def primaryPort (ports : List Int) : Int :=
  if 80 ∈ ports then 80 else if 8080 ∈ ports then 8080 else ports.headD 0

/-- The single-container domain-allocation rule as the specification words
it: for every exposed port `p` a service named `p` at `ip:p`, plus — when
any port is exposed — exactly one bare-namespace service at the primary
port's address. -/
def exposedServicesSpec (address : String) (ports : List Int)
    (nspace : String) : List DckrService :=
  (ports.map fun port =>
    ⟨nspace, toString port, address ++ ":" ++ toString port⟩)
  ++ (if ports = [] then []
      else [⟨nspace, "", address ++ ":" ++ toString (primaryPort ports)⟩])

/-- The second component of an `enumFrom` entry is a list element. -/
theorem snd_mem_of_mem_enumFrom {α : Type} {l : List α} {n : Nat}
    {e : Nat × α} (he : e ∈ List.enumFrom n l) : e.2 ∈ l := by
  induction l generalizing n with
  | nil => cases he
  | cons x xs ih =>
    rcases List.mem_cons.mp he with h | h
    · rw [h]; exact List.mem_cons_self _ _
    · exact List.mem_cons_of_mem _ (ih h)

/-- Priority 1 is unbeatable: the loop never changes its answer again. -/
theorem findRootLoop_best_one (l : List (Nat × Int)) (b : Nat) :
    findRootLoop l 1 b = b := by
  induction l generalizing b with
  | nil => rfl
  | cons e rest ih =>
    obtain ⟨i, port⟩ := e
    rw [findRootLoop]
    rcases hp : portsPriority port with _ | p
    · exact ih b
    · have hp2 : p = 1 ∨ p = 2 := by
        rw [portsPriority] at hp
        split at hp
        · exact Or.inl (Option.some.inj hp).symm
        · split at hp
          · exact Or.inr (Option.some.inj hp).symm
          · exact absurd hp (by simp)
      show (if p < 1 then findRootLoop rest p i else findRootLoop rest 1 b)
        = b
      rw [if_neg (by omega)]
      exact ih b

/-- With best priority 2, a list containing no port 80 leaves the answer
unchanged. -/
theorem findRootLoop_best_two_no80 (l : List (Nat × Int)) (b : Nat)
    (h : ∀ e ∈ l, e.2 ≠ 80) : findRootLoop l 2 b = b := by
  induction l generalizing b with
  | nil => rfl
  | cons e rest ih =>
    obtain ⟨i, port⟩ := e
    have hport : port ≠ 80 := h (i, port) (by simp)
    rw [findRootLoop]
    rcases hp : portsPriority port with _ | p
    · exact ih b fun e he => h e (List.mem_cons_of_mem _ he)
    · have hp2 : p = 2 := by
        rw [portsPriority, if_neg hport] at hp
        split at hp
        · exact (Option.some.inj hp).symm
        · exact absurd hp (by simp)
      show (if p < 2 then findRootLoop rest p i else findRootLoop rest 2 b)
        = b
      rw [if_neg (by omega)]
      exact ih b fun e he => h e (List.mem_cons_of_mem _ he)

/-- With best priority 2, the loop answers the index of the first port 80
when one is present. -/
theorem findRootLoop_best_two_with80 (ports : List Int) (n b : Nat)
    (h : 80 ∈ ports) :
    findRootLoop (List.enumFrom n ports) 2 b = n + ports.indexOf 80 := by
  induction ports generalizing n b with
  | nil => cases h
  | cons p ps ih =>
    rw [List.enumFrom, findRootLoop]
    by_cases hp : p = 80
    · subst hp
      have h1 : portsPriority 80 = some 1 := by rw [portsPriority]; simp
      rw [h1]
      show (if 1 < 2 then findRootLoop (List.enumFrom (n + 1) ps) 1 n
        else findRootLoop (List.enumFrom (n + 1) ps) 2 b)
          = n + List.indexOf 80 (80 :: ps)
      rw [if_pos (by omega), findRootLoop_best_one,
        List.indexOf_cons_self, Nat.add_zero]
    · have hmem : 80 ∈ ps := by
        rcases List.mem_cons.mp h with h1 | h2
        · exact absurd h1.symm hp
        · exact h2
      have hidx : List.indexOf 80 (p :: ps) = List.indexOf 80 ps + 1 :=
        List.indexOf_cons_ne ps hp
      rcases hq : portsPriority p with _ | q
      · show findRootLoop (List.enumFrom (n + 1) ps) 2 b
          = n + List.indexOf 80 (p :: ps)
        rw [ih (n + 1) b hmem, hidx]
        omega
      · have hq2 : q = 2 := by
          rw [portsPriority, if_neg hp] at hq
          split at hq
          · exact (Option.some.inj hq).symm
          · exact absurd hq (by simp)
        subst hq2
        show (if 2 < 2 then findRootLoop (List.enumFrom (n + 1) ps) 2 n
          else findRootLoop (List.enumFrom (n + 1) ps) 2 b)
            = n + List.indexOf 80 (p :: ps)
        rw [if_neg (by omega), ih (n + 1) b hmem, hidx]
        omega

/-- Starting from priority 999: the loop answers the index of the first
port 80 when present, else the index of the first 8080 when present, else
the initial answer. -/
theorem findRootLoop_enumFrom (ports : List Int) (n b : Nat) :
    findRootLoop (List.enumFrom n ports) 999 b =
      if 80 ∈ ports then n + ports.indexOf 80
      else if 8080 ∈ ports then n + ports.indexOf 8080
      else b := by
  induction ports generalizing n b with
  | nil => simp [List.enumFrom, findRootLoop]
  | cons p ps ih =>
    rw [List.enumFrom, findRootLoop]
    by_cases hp80 : p = 80
    · subst hp80
      have h1 : portsPriority 80 = some 1 := by rw [portsPriority]; simp
      rw [h1]
      show (if 1 < 999 then findRootLoop (List.enumFrom (n + 1) ps) 1 n
        else findRootLoop (List.enumFrom (n + 1) ps) 999 b) = _
      rw [if_pos (by omega), findRootLoop_best_one,
        if_pos (List.mem_cons_self _ _), List.indexOf_cons_self,
        Nat.add_zero]
    · by_cases hp8080 : p = 8080
      · subst hp8080
        have h2 : portsPriority 8080 = some 2 := by rw [portsPriority]; simp
        rw [h2]
        show (if 2 < 999 then findRootLoop (List.enumFrom (n + 1) ps) 2 n
          else findRootLoop (List.enumFrom (n + 1) ps) 999 b) = _
        rw [if_pos (by omega)]
        by_cases h80 : 80 ∈ ps
        · rw [findRootLoop_best_two_with80 ps (n + 1) n h80]
          have hmem : (80 : Int) ∈ 8080 :: ps := List.mem_cons_of_mem _ h80
          rw [if_pos hmem, List.indexOf_cons_ne ps (by norm_num)]
          omega
        · have hno : ∀ e ∈ List.enumFrom (n + 1) ps, e.2 ≠ 80 := by
            intro e he hcontra
            exact h80 (hcontra ▸ snd_mem_of_mem_enumFrom he)
          rw [findRootLoop_best_two_no80 _ n hno]
          have h80c : ¬(80 : Int) ∈ 8080 :: ps := fun hmem =>
            (List.mem_cons.mp hmem).elim (fun hc => absurd hc (by norm_num))
              h80
          rw [if_neg h80c, if_pos (List.mem_cons_self _ _),
            List.indexOf_cons_self, Nat.add_zero]
      · have hnone : portsPriority p = none := by
          rw [portsPriority, if_neg hp80, if_neg hp8080]
        rw [hnone]
        show findRootLoop (List.enumFrom (n + 1) ps) 999 b = _
        rw [ih (n + 1) b]
        by_cases h80 : 80 ∈ ps
        · rw [if_pos h80, if_pos (List.mem_cons_of_mem _ h80),
            List.indexOf_cons_ne ps hp80]
          omega
        · rw [if_neg h80]
          have h80c : ¬(80 : Int) ∈ p :: ps := fun hmem =>
            (List.mem_cons.mp hmem).elim (fun hc => hp80 hc.symm) h80
          rw [if_neg h80c]
          by_cases h8080 : 8080 ∈ ps
          · rw [if_pos h8080, if_pos (List.mem_cons_of_mem _ h8080),
              List.indexOf_cons_ne ps hp8080]
            omega
          · have h8080c : ¬(8080 : Int) ∈ p :: ps := fun hmem =>
              (List.mem_cons.mp hmem).elim (fun hc => hp8080 hc.symm) h8080
            rw [if_neg h8080, if_neg h8080c]

/-- Reading the per-port service list at an in-range index yields the
service of the port at that index. -/
theorem getD_map_portService (address nspace : String) (l : List Int)
    (k : Nat) (hk : k < l.length) :
    ((l.map fun port =>
        DckrService.mk nspace (toString port)
          (address ++ ":" ++ toString port)).getD k ⟨"", "", ""⟩)
      = ⟨nspace, toString (l.get ⟨k, hk⟩),
          address ++ ":" ++ toString (l.get ⟨k, hk⟩)⟩ := by
  rw [List.getD_eq_getElem _ _ (by simpa using hk), List.getElem_map]
  rfl

/-- C7: the single-container driver publishes one service per exposed
port, named after the port and pointing at `ip:port`, plus — exactly when
the port list is non-empty — exactly one bare-namespace service whose
address is that of the primary port: 80 if exposed, else 8080 if exposed,
else the first enumerated port; with no ports, no bare-namespace service is
produced. -/
theorem claim7_exposed_services (address : String) (ports : List Int)
    (nspace : String) :
    exposedServices address ports nspace =
      exposedServicesSpec address ports nspace := by
  cases ports with
  | nil => rfl
  | cons p ps =>
    simp only [exposedServices, exposedServicesSpec]
    have hroot : findRootPort (p :: ps) =
        ((findRootLoop (List.enumFrom 0 (p :: ps)) 999 0 : Nat) : Int) := by
      rw [findRootPort, if_neg (by simp)]
      rfl
    set k : Nat := findRootLoop (List.enumFrom 0 (p :: ps)) 999 0 with hkdef
    have hne : findRootPort (p :: ps) ≠ -1 := by
      rw [hroot]
      omega
    rw [if_pos hne, if_neg (List.cons_ne_nil p ps), hroot]
    have hto : ((k : Int)).toNat = k := Int.toNat_natCast k
    rw [hto]
    congr 1
    have hk : k = if (80 : Int) ∈ p :: ps then List.indexOf 80 (p :: ps)
        else if (8080 : Int) ∈ p :: ps then List.indexOf 8080 (p :: ps)
        else 0 := by
      rw [hkdef, findRootLoop_enumFrom]
      simp
    by_cases h80 : (80 : Int) ∈ p :: ps
    · have hbound : List.indexOf 80 (p :: ps) < (p :: ps).length :=
        List.indexOf_lt_length.mpr h80
      have hkv : k = List.indexOf 80 (p :: ps) := by rw [hk, if_pos h80]
      rw [hkv, getD_map_portService address nspace (p :: ps) _ hbound]
      simp only [List.get_eq_getElem]
      rw [List.getElem_indexOf hbound]
      rw [primaryPort, if_pos h80]
    · by_cases h8080 : (8080 : Int) ∈ p :: ps
      · have hbound : List.indexOf 8080 (p :: ps) < (p :: ps).length :=
          List.indexOf_lt_length.mpr h8080
        have hkv : k = List.indexOf 8080 (p :: ps) := by
          rw [hk, if_neg h80, if_pos h8080]
        rw [hkv, getD_map_portService address nspace (p :: ps) _ hbound]
        simp only [List.get_eq_getElem]
        rw [List.getElem_indexOf hbound]
        rw [primaryPort, if_neg h80, if_pos h8080]
      · have hkv : k = 0 := by rw [hk, if_neg h80, if_neg h8080]
        rw [hkv, getD_map_portService address nspace (p :: ps) 0 (by simp)]
        rw [primaryPort, if_neg h80, if_neg h8080]
        rfl

/-! ## `core/v1/launcher.go`: the daemon launcher -/

/-- Launcher lifecycle events (core/events.go). -/
inductive LauncherEvent
  | scheduled
  | created
  | createFailed
  | ready
  | runFailed
  | stopped
  | removed
  | removeFailed
deriving DecidableEq

/-- The bitmask value of each event (core/events.go). -/
def LauncherEvent.code : LauncherEvent → Nat
  | .scheduled => 1
  | .created => 2
  | .createFailed => 4
  | .ready => 8
  | .runFailed => 16
  | .stopped => 32
  | .removed => 64
  | .removeFailed => 128

/-- An abstract Go error value. -/
structure GoError where
  msg : String
deriving DecidableEq

/-- Struct `LauncherEventMessage` (core/events.go): event kind, daemon name, and
the optional error (`nil for non-Failed events`). -/
structure LauncherEventMessage where
  event : LauncherEvent
  daemon : String
  error : Option GoError
deriving DecidableEq

/-- Struct `runningDaemon` (core/v1/launcher.go): the supervisor's live entry for
a daemon; the cancel closure is not data, so the entry carries the last
event only. -/
structure runningDaemon where
  lastEvent : LauncherEventMessage
deriving DecidableEq

/-- The supervisor goroutine's mutable state: the `deployed` map (as an
association list), the subscriber set (as handles), and a ghost counter of
daemon goroutines started by `spawn`. -/
structure LauncherState where
  deployed : List (String × runningDaemon)
  subscribers : List Nat
  spawnedTasks : Nat
deriving DecidableEq

/-- Function `isDeployed` (core/v1/launcher.go). -/
def isDeployed (st : LauncherState) (name : String) : Bool :=
  (st.deployed.map Prod.fst).contains name

/-- Function `spawn` (core/v1/launcher.go): a name already deployed is silently
ignored (no goroutine started, no entry touched); otherwise start the
daemon goroutine and record the entry with last event `Scheduled`. -/
def spawn (st : LauncherState) (name : String) : LauncherState :=
  if isDeployed st name then st
  else
    { st with
      deployed := st.deployed ++ [(name, ⟨⟨.scheduled, name, none⟩⟩)],
      spawnedTasks := st.spawnedTasks + 1 }

/-- Function `destroy` (core/v1/launcher.go): request cancellation of a live
daemon; the live set itself is unchanged (removal happens on `finished`). -/
def destroy (st : LauncherState) (_name : String) : LauncherState :=
  st

/-- The `finished` branch of the supervisor loop: delete the entry. -/
def finishDaemon (st : LauncherState) (name : String) : LauncherState :=
  { st with deployed := st.deployed.filter fun e => e.1 != name }

/-- Function `distributeEvent` (core/v1/launcher.go): record the event as the
daemon's last event when the daemon is live (fan-out to subscribers does
not change supervisor state). -/
def distributeEvent (st : LauncherState) (msg : LauncherEventMessage) :
    LauncherState :=
  { st with
    deployed := st.deployed.map fun e =>
      if e.1 = msg.daemon then (e.1, ⟨msg⟩) else e }

/-- One command received by the supervisor loop over its channels. -/
inductive LauncherCmd
  | launch (name : String)
  | remove (name : String)
  | finished (name : String)
  | event (msg : LauncherEventMessage)
  | subscribe
  | unsubscribe (i : Nat)
deriving DecidableEq

/-- One iteration of the supervisor loop (core/v1/launcher.go `Run`). -/
def launcherStep (st : LauncherState) : LauncherCmd → LauncherState
  | .launch name => spawn st name
  | .remove name => destroy st name
  | .finished name => finishDaemon st name
  | .event msg => distributeEvent st msg
  | .subscribe =>
    { st with subscribers := st.subscribers ++ [st.subscribers.length] }
  | .unsubscribe i =>
    { st with subscribers := st.subscribers.filter fun x => x != i }

/-- The supervisor state after processing a command sequence from the
freshly constructed launcher (`NewLauncher`). -/
def launcherRun (cmds : List LauncherCmd) : LauncherState :=
  cmds.foldl launcherStep ⟨[], [], 0⟩

/-- Every step of the supervisor loop keeps the deployed names free of
duplicates. -/
theorem launcherStep_nodup (st : LauncherState) (c : LauncherCmd)
    (h : (st.deployed.map Prod.fst).Nodup) :
    ((launcherStep st c).deployed.map Prod.fst).Nodup := by
  cases c with
  | launch name =>
    show ((spawn st name).deployed.map Prod.fst).Nodup
    rw [spawn]
    by_cases hd : isDeployed st name
    · rwa [if_pos hd]
    · rw [if_neg hd]
      simp only [List.map_append, List.map_cons, List.map_nil]
      rw [List.nodup_append]
      refine ⟨h, List.nodup_singleton _, ?_⟩
      intro x hx hmem
      have hxname : x = name := List.mem_singleton.mp hmem
      subst hxname
      exact hd (List.elem_eq_true_of_mem hx)
  | remove name => exact h
  | finished name =>
    show ((finishDaemon st name).deployed.map Prod.fst).Nodup
    rw [finishDaemon]
    exact ((List.filter_sublist _).map Prod.fst).nodup h
  | event msg =>
    show ((distributeEvent st msg).deployed.map Prod.fst).Nodup
    rw [distributeEvent]
    have hmap : (st.deployed.map fun e =>
        if e.1 = msg.daemon then (e.1, (⟨msg⟩ : runningDaemon)) else e).map
          Prod.fst = st.deployed.map Prod.fst := by
      rw [List.map_map]
      apply List.map_congr_left
      intro e _
      by_cases he : e.1 = msg.daemon <;> simp [he]
    rwa [hmap]
  | subscribe => exact h
  | unsubscribe i => exact h

/-- C1: a Launch request for a name already in the live set is silently
ignored — the supervisor state (live entries, last events, spawned daemon
goroutines) is exactly unchanged, and `Launch` itself returns success
(channel hand-off, modelled by `launcherStep` being total) — and over every
command sequence processed by the supervisor from a fresh launcher the
deployed names never contain a duplicate: at most one daemon per name. -/
theorem claim1_launch_ignored_and_unique (st : LauncherState)
    (name : String) (cmds : List LauncherCmd)
    (h : isDeployed st name = true) :
    launcherStep st (.launch name) = st ∧
    ((launcherRun cmds).deployed.map Prod.fst).Nodup := by
  constructor
  · show spawn st name = st
    rw [spawn, if_pos h]
  · rw [launcherRun]
    have key : ∀ (start : LauncherState),
        (start.deployed.map Prod.fst).Nodup →
        ((cmds.foldl launcherStep start).deployed.map Prod.fst).Nodup := by
      induction cmds with
      | nil => intro start hs; exact hs
      | cons c cs ih =>
        intro start hs
        exact ih _ (launcherStep_nodup start c hs)
    exact key ⟨[], [], 0⟩ (by simp)

/-- C1 witness: relaunching `my-app` while live leaves the state intact,
and a concrete command sequence with a duplicate launch keeps names
unique. -/
theorem claim1_launch_ignored_and_unique_witness :
    launcherStep ⟨[("my-app", ⟨⟨.scheduled, "my-app", none⟩⟩)], [], 1⟩
        (.launch "my-app") =
      ⟨[("my-app", ⟨⟨.scheduled, "my-app", none⟩⟩)], [], 1⟩ ∧
    ((launcherRun [.launch "my-app", .launch "my-app",
        .finished "my-app", .launch "my-app"]).deployed.map
          Prod.fst).Nodup :=
  claim1_launch_ignored_and_unique
    ⟨[("my-app", ⟨⟨.scheduled, "my-app", none⟩⟩)], [], 1⟩ "my-app"
    [.launch "my-app", .launch "my-app", .finished "my-app",
      .launch "my-app"] (by decide)

/-- Observable behaviour of one `runDaemon` iteration's daemon calls: the
error returned by `Create`, whether the daemon signalled `Ready()` during
`Run` (the contract's readiness signal; idempotent, so at most once), the
error returned by `Run`, and the error returned by `Remove`. -/
structure DaemonBehavior where
  createErr : Option GoError
  readyDuringRun : Bool
  runErr : Option GoError
  removeErr : Option GoError
deriving DecidableEq

/-- The messages `runDaemon` (core/v1/launcher.go) publishes for one
iteration, in order. Faithful to the source: every `notify` call there
passes `nil` as the error, including the `CreateFailed`, `RunFailed` and
`RemoveFailed` calls, so each message carries `none`. `Scheduled` is never
published: `spawn` only stores it as the initial `lastEvent`. -/
def runDaemonMsgs (name : String) (b : DaemonBehavior) :
    List LauncherEventMessage :=
  match b.createErr with
  | some _ => [⟨.createFailed, name, none⟩]
  | none =>
    [⟨.created, name, none⟩]
      ++ (if b.readyDuringRun then [⟨.ready, name, none⟩] else [])
      ++ (match b.runErr with
          | some _ => [⟨.runFailed, name, none⟩]
          | none => [])
      ++ [⟨.stopped, name, none⟩]
      ++ (match b.removeErr with
          | some _ => [⟨.removeFailed, name, none⟩]
          | none => [⟨.removed, name, none⟩])

/-- The full event stream one daemon produces under `runDaemonLoop`: the
concatenation of its retry iterations' messages. -/
def runDaemonLoopMsgs (name : String) (behs : List DaemonBehavior) :
    List LauncherEventMessage :=
  (behs.map (runDaemonMsgs name)).flatten

/-- Events of kind `a` are preceded by events of kind `b` in the stream `t`. -/
def PrecededMsg (a b : LauncherEvent) (t : List LauncherEventMessage) :
    Prop :=
  ∀ i : Fin t.length, (t.get i).event = a →
    ∃ j : Fin t.length, j.1 < i.1 ∧ (t.get j).event = b

instance (a b : LauncherEvent) (t : List LauncherEventMessage) :
    Decidable (PrecededMsg a b t) := by
  unfold PrecededMsg
  infer_instance

/-- In a stream opening with a `b`-event, whose kind differs from `a`,
every `a` is preceded by a `b`. -/
theorem precededMsg_cons_head (a b : LauncherEvent)
    (m : LauncherEventMessage) (rest : List LauncherEventMessage)
    (hm : m.event = b) (hab : a ≠ m.event) :
    PrecededMsg a b (m :: rest) := by
  intro i hi
  match i with
  | ⟨0, hlt⟩ =>
    exact absurd (show m.event = a from hi) fun hc => hab hc.symm
  | ⟨k + 1, hlt⟩ =>
    exact ⟨⟨0, by omega⟩, show 0 < k + 1 by omega, hm⟩

/-- Streams of length ≤ 1 whose only message is not an `a` trivially
satisfy precedence. -/
theorem precededMsg_singleton (a b : LauncherEvent)
    (m : LauncherEventMessage) (hne : m.event ≠ a) :
    PrecededMsg a b [m] := by
  intro i hi
  match i with
  | ⟨0, hlt⟩ => exact absurd hi hne

/-- Precedence is preserved by concatenation: an `a` inside either piece
finds its `b` inside the same piece. -/
theorem precededMsg_append (a b : LauncherEvent)
    (t₁ t₂ : List LauncherEventMessage) (h1 : PrecededMsg a b t₁)
    (h2 : PrecededMsg a b t₂) : PrecededMsg a b (t₁ ++ t₂) := by
  intro i hi
  rcases Nat.lt_or_ge i.1 t₁.length with hlt | hge
  · have hv : (t₁ ++ t₂).get i = t₁.get ⟨i.1, hlt⟩ := by
      simp only [List.get_eq_getElem]
      exact List.getElem_append_left hlt
    obtain ⟨j, hj, hb⟩ := h1 ⟨i.1, hlt⟩ (by rw [← hv]; exact hi)
    have hjlen : j.1 < (t₁ ++ t₂).length := by
      simp only [List.length_append]
      omega
    refine ⟨⟨j.1, hjlen⟩, hj, ?_⟩
    have hv2 : (t₁ ++ t₂).get ⟨j.1, hjlen⟩ = t₁.get j := by
      simp only [List.get_eq_getElem]
      exact List.getElem_append_left j.isLt
    rw [hv2]
    exact hb
  · have hi2 : i.1 - t₁.length < t₂.length := by
      have := i.isLt
      simp only [List.length_append] at this
      omega
    have hv : (t₁ ++ t₂).get i = t₂.get ⟨i.1 - t₁.length, hi2⟩ := by
      simp only [List.get_eq_getElem]
      exact List.getElem_append_right hge
    obtain ⟨j, hj, hb⟩ := h2 ⟨i.1 - t₁.length, hi2⟩ (by rw [← hv]; exact hi)
    have hj2 : j.1 < i.1 - t₁.length := hj
    have hjlen : t₁.length + j.1 < (t₁ ++ t₂).length := by
      have := j.isLt
      simp only [List.length_append]
      omega
    refine ⟨⟨t₁.length + j.1, hjlen⟩, show t₁.length + j.1 < i.1 by
      omega, ?_⟩
    have hv2 : (t₁ ++ t₂).get ⟨t₁.length + j.1, hjlen⟩ = t₂.get j := by
      simp only [List.get_eq_getElem]
      rw [List.getElem_append_right (by omega)]
      congr 1
      omega
    rw [hv2]
    exact hb

/-- In any single `runDaemon` iteration, any event other than `Created`
and `CreateFailed` is preceded by `Created`: the iteration either consists
of the lone `CreateFailed`, or opens with `Created`. -/
theorem runDaemon_preceded_created (name : String) (b : DaemonBehavior)
    (a : LauncherEvent) (ha : a ≠ .created) (hcf : a ≠ .createFailed) :
    PrecededMsg a .created (runDaemonMsgs name b) := by
  rw [runDaemonMsgs]
  cases hc : b.createErr with
  | some e =>
    exact precededMsg_singleton a .created _ fun h => hcf h.symm
  | none =>
    simp only [List.append_assoc, List.singleton_append]
    exact precededMsg_cons_head a .created _ _ rfl ha

/-- C3 amended: in the launcher's per-daemon event stream, every `Ready`
is preceded by a `Created`, and every `Removed` is preceded by a `Created`
(not by a `Scheduled`: the supervisor stores `Scheduled` only as a
replayed last event and never publishes it to the stream). -/
theorem claim3_stream_order_amended (name : String)
    (behs : List DaemonBehavior) :
    PrecededMsg .ready .created (runDaemonLoopMsgs name behs) ∧
    PrecededMsg .removed .created (runDaemonLoopMsgs name behs) := by
  have key : ∀ a : LauncherEvent, a ≠ .created → a ≠ .createFailed →
      PrecededMsg a .created (runDaemonLoopMsgs name behs) := by
    intro a h1 h2
    rw [runDaemonLoopMsgs]
    induction behs with
    | nil => exact fun i => absurd i.isLt (by simp)
    | cons bb bs ih =>
      rw [List.map_cons, List.flatten_cons]
      exact precededMsg_append a .created _ _
        (runDaemon_preceded_created name bb a h1 h2) ih
  exact ⟨key .ready (by decide) (by decide),
    key .removed (by decide) (by decide)⟩

/-- C3 witness: the ordering holds on a concrete two-iteration stream. -/
theorem claim3_stream_order_amended_witness :
    PrecededMsg .ready .created (runDaemonLoopMsgs "my-app"
      [⟨none, true, none, none⟩, ⟨some ⟨"build: exit 1"⟩, false, none,
        none⟩]) ∧
    PrecededMsg .removed .created (runDaemonLoopMsgs "my-app"
      [⟨none, true, none, none⟩, ⟨some ⟨"build: exit 1"⟩, false, none,
        none⟩]) :=
  claim3_stream_order_amended "my-app"
    [⟨none, true, none, none⟩, ⟨some ⟨"build: exit 1"⟩, false, none, none⟩]

/-- C3 counterexample to the claim as stated: a daemon that is created,
signals ready, stops and is removed cleanly publishes the stream
`[Created, Ready, Stopped, Removed]`; its `Removed` event has no preceding
`Scheduled` event, because `spawn` records `Scheduled` only as the entry's
initial last event and never publishes it. -/
theorem claim3_counterexample_no_scheduled :
    ¬PrecededMsg .removed .scheduled
      (runDaemonLoopMsgs "my-app" [⟨none, true, none, none⟩]) := by
  decide

/-- C4: every `notify` call in `runDaemon` passes `nil` as the error, so
the `CreateFailed`, `RunFailed` and `RemoveFailed` messages carry no error
even when `Create`, `Run` or `Remove` returned one: evaluated at failing
behaviours, each published message's error field is `none`. -/
theorem claim4_failed_events_error_none :
    runDaemonMsgs "my-app" ⟨some ⟨"build: exit 1"⟩, false, none, none⟩ =
      [⟨.createFailed, "my-app", none⟩] ∧
    runDaemonMsgs "my-app"
        ⟨none, false, some ⟨"run: crashed"⟩, some ⟨"remove: busy"⟩⟩ =
      [⟨.created, "my-app", none⟩, ⟨.runFailed, "my-app", none⟩,
        ⟨.stopped, "my-app", none⟩, ⟨.removeFailed, "my-app", none⟩] := by
  decide

/-! ## `core/v1` registry: Go maps as association lists -/

/-- Go map lookup. -/
def aFind {β : Type} : List (GoStr × β) → GoStr → Option β
  | [], _ => none
  | (k1, v) :: rest, k => if k1 = k then some v else aFind rest k

/-- Go map assignment: replace the entry in place, or add it. -/
def aInsert {β : Type} : List (GoStr × β) → GoStr → β → List (GoStr × β)
  | [], k, v => [(k, v)]
  | (k1, v1) :: rest, k, v =>
    if k1 = k then (k, v) :: rest else (k1, v1) :: aInsert rest k v

/-- Go map `delete`. -/
def aErase {β : Type} : List (GoStr × β) → GoStr → List (GoStr × β)
  | [], _ => []
  | (k1, v1) :: rest, k =>
    if k1 = k then aErase rest k else (k1, v1) :: aErase rest k

theorem aFind_aInsert_self {β : Type} (m : List (GoStr × β)) (k : GoStr)
    (v : β) : aFind (aInsert m k v) k = some v := by
  induction m with
  | nil => simp [aInsert, aFind]
  | cons e rest ih =>
    obtain ⟨k1, v1⟩ := e
    rw [aInsert]
    by_cases h : k1 = k
    · rw [if_pos h, aFind, if_pos rfl]
    · rw [if_neg h, aFind, if_neg h]
      exact ih

theorem aFind_aInsert_ne {β : Type} (m : List (GoStr × β)) (k k' : GoStr)
    (v : β) (h : k' ≠ k) : aFind (aInsert m k v) k' = aFind m k' := by
  induction m with
  | nil =>
    simp only [aInsert, aFind]
    rw [if_neg fun hc => h hc.symm]
  | cons e rest ih =>
    obtain ⟨k1, v1⟩ := e
    rw [aInsert]
    by_cases h1 : k1 = k
    · rw [if_pos h1]
      subst h1
      simp only [aFind]
      rw [if_neg fun hc => h hc.symm, if_neg fun hc => h hc.symm]
    · rw [if_neg h1]
      simp only [aFind]
      by_cases h2 : k1 = k'
      · rw [if_pos h2, if_pos h2]
      · rw [if_neg h2, if_neg h2]
        exact ih

theorem aFind_eq_none_notMem {β : Type} (m : List (GoStr × β)) (k : GoStr)
    (h : aFind m k = none) : k ∉ m.map Prod.fst := by
  induction m with
  | nil => simp
  | cons e rest ih =>
    obtain ⟨k1, v1⟩ := e
    rw [aFind] at h
    by_cases h1 : k1 = k
    · rw [if_pos h1] at h
      cases h
    · rw [if_neg h1] at h
      simp only [List.map_cons, List.mem_cons]
      rintro (hc | hc)
      · exact h1 hc.symm
      · exact ih h hc

theorem aInsert_absent {β : Type} (m : List (GoStr × β)) (k : GoStr)
    (v : β) (h : aFind m k = none) : aInsert m k v = m ++ [(k, v)] := by
  induction m with
  | nil => rfl
  | cons e rest ih =>
    obtain ⟨k1, v1⟩ := e
    rw [aFind] at h
    by_cases h1 : k1 = k
    · rw [if_pos h1] at h
      cases h
    · rw [if_neg h1] at h
      rw [aInsert, if_neg h1, List.cons_append, ih h]

theorem aErase_sublist {β : Type} (m : List (GoStr × β)) (k : GoStr) :
    (aErase m k).Sublist m := by
  induction m with
  | nil => exact List.Sublist.refl _
  | cons e rest ih =>
    obtain ⟨k1, v1⟩ := e
    rw [aErase]
    by_cases h1 : k1 = k
    · rw [if_pos h1]
      exact ih.cons _
    · rw [if_neg h1]
      exact ih.cons₂ _

theorem aFind_aErase_ne {β : Type} (m : List (GoStr × β)) (k k' : GoStr)
    (h : k' ≠ k) : aFind (aErase m k) k' = aFind m k' := by
  induction m with
  | nil => rfl
  | cons e rest ih =>
    obtain ⟨k1, v1⟩ := e
    rw [aErase]
    by_cases h1 : k1 = k
    · rw [if_pos h1, aFind, if_neg (by rw [h1]; exact fun hc => h hc.symm)]
      exact ih
    · rw [if_neg h1, aFind, aFind]
      by_cases h2 : k1 = k'
      · rw [if_pos h2, if_pos h2]
      · rw [if_neg h2, if_neg h2]
        exact ih

theorem mem_aInsert {β : Type} (m : List (GoStr × β)) (k : GoStr) (v : β)
    (e : GoStr × β) (he : e ∈ aInsert m k v) : e = (k, v) ∨ e ∈ m := by
  induction m with
  | nil =>
    rw [aInsert] at he
    exact Or.inl (List.mem_singleton.mp he)
  | cons e1 rest ih =>
    obtain ⟨k1, v1⟩ := e1
    rw [aInsert] at he
    by_cases h1 : k1 = k
    · rw [if_pos h1] at he
      rcases List.mem_cons.mp he with hc | hc
      · exact Or.inl hc
      · exact Or.inr (List.mem_cons_of_mem _ hc)
    · rw [if_neg h1] at he
      rcases List.mem_cons.mp he with hc | hc
      · exact Or.inr (by rw [hc]; exact List.mem_cons_self _ _)
      · rcases ih hc with hd | hd
        · exact Or.inl hd
        · exact Or.inr (List.mem_cons_of_mem _ hd)

theorem aErase_of_notMem {β : Type} (m : List (GoStr × β)) (k : GoStr)
    (h : k ∉ m.map Prod.fst) : aErase m k = m := by
  induction m with
  | nil => rfl
  | cons e rest ih =>
    obtain ⟨k1, v1⟩ := e
    simp only [List.map_cons, List.mem_cons] at h
    push_neg at h
    rw [aErase, if_neg (fun hc => h.1 hc.symm), ih h.2]

/-- A map with distinct keys is, up to permutation, the found entry
followed by its erasure. -/
theorem perm_cons_aErase {β : Type} (m : List (GoStr × β)) (k : GoStr)
    (v : β) (hfind : aFind m k = some v)
    (hnodup : (m.map Prod.fst).Nodup) :
    m.Perm ((k, v) :: aErase m k) := by
  induction m with
  | nil => cases hfind
  | cons e rest ih =>
    obtain ⟨k1, v1⟩ := e
    rw [aFind] at hfind
    simp only [List.map_cons, List.nodup_cons] at hnodup
    by_cases h1 : k1 = k
    · rw [if_pos h1] at hfind
      obtain rfl : v1 = v := Option.some.inj hfind
      subst h1
      rw [aErase, if_pos rfl,
        aErase_of_notMem rest k1 hnodup.1]
    · rw [if_neg h1] at hfind
      rw [aErase, if_neg h1]
      have step1 : ((k1, v1) :: rest).Perm
          ((k1, v1) :: ((k, v) :: aErase rest k)) :=
        (ih hfind hnodup.2).cons _
      have step2 : ((k1, v1) :: ((k, v) :: aErase rest k)).Perm
          ((k, v) :: ((k1, v1) :: aErase rest k)) :=
        List.Perm.swap _ _ _
      exact step1.trans step2

/-- Struct `core.Service` as stored by the registry: namespace, name, upstream
addresses, and the (possibly stamped) routing domain. -/
structure RegService where
  nspace : GoStr
  name : GoStr
  addresses : List GoStr
  domain : GoStr
deriving DecidableEq

/-- The registry's synchronous errors (`ErrServiceDomainAlreadyUsed`,
`ErrServiceAlreadyRegistered`). -/
inductive RegError
  | serviceDomainAlreadyUsed
  | serviceAlreadyRegistered
deriving DecidableEq

/-- A Go runtime panic reachable in the registry code. -/
inductive GoPanic
  | nilMapAssignment
deriving DecidableEq

/-- The `registry` struct (core/v1 registry): root domain, nested
namespace→name→service map, domain→service map, and the `listeners` map,
which is `none` while the Go map is `nil`. -/
structure RegState where
  rootDomain : GoStr
  namespaces : List (GoStr × List (GoStr × RegService))
  byDomain : List (GoStr × RegService)
  listeners : Option (List Nat)
deriving DecidableEq

/-- Function `normalizeDomain`: append the root domain unless it is empty or
already a suffix. -/
def normalizeDomain (root domain : GoStr) : GoStr :=
  if root ≠ [] ∧ ¬goHasSuffix domain ('.' :: root) then
    domain ++ '.' :: root
  else domain

/-- Function `getDomain`: the canonical domain of a service — the explicit domain,
or `name.namespace` when absent, normalised against the root domain. -/
def getDomain (root : GoStr) (srv : RegService) : GoStr :=
  let zone := if srv.domain = [] then srv.name ++ '.' :: srv.nspace
    else srv.domain
  normalizeDomain root zone

/-- Constructor `NewRegistry` (core/v1 registry): initialises the namespace and domain
maps but leaves the `listeners` map `nil`. -/
def NewRegistry (root : GoStr) : RegState :=
  ⟨root, [], [], none⟩

/-- Method `registry.Register`: reject a used canonical domain, then a used
(namespace, name) pair; otherwise stamp the canonical domain into the
service and index it in both maps. -/
def Register (st : RegState) (srv : RegService) :
    Except RegError Unit × RegState :=
  let domain := getDomain st.rootDomain srv
  match aFind st.byDomain domain with
  | some _ => (.error .serviceDomainAlreadyUsed, st)
  | none =>
    let srv1 := { srv with domain := domain }
    let nsServices := (aFind st.namespaces srv1.nspace).getD []
    match aFind nsServices srv1.name with
    | some _ => (.error .serviceAlreadyRegistered, st)
    | none =>
      (.ok (), { st with
        namespaces := aInsert st.namespaces srv1.nspace
          (aInsert nsServices srv1.name srv1),
        byDomain := aInsert st.byDomain domain srv1 })

/-- Method `registry.Unregister`: drop the service from its namespace and from
the domain map (keyed by the stored service's canonical domain);
idempotent. -/
def Unregister (st : RegState) (nspace name : GoStr) : RegState :=
  match aFind st.namespaces nspace with
  | none => st
  | some services =>
    match aFind services name with
    | none => st
    | some srv =>
      { st with
        namespaces := aInsert st.namespaces nspace (aErase services name),
        byDomain := aErase st.byDomain (getDomain st.rootDomain srv) }

/-- Method `registry.Subscribe` performs `reg.listeners[ch] = ch` — an assignment into
the `listeners` map, which `NewRegistry` never initialises; in Go an
assignment into a `nil` map panics. Channels are modelled as handles. -/
def Subscribe (st : RegState) (_buffer : Nat) (_replay : Bool) :
    Except GoPanic (RegState × Nat) :=
  match st.listeners with
  | none => .error .nilMapAssignment
  | some ls =>
    .ok ({ st with listeners := some (ls ++ [ls.length]) }, ls.length)

/-- A registry mutation issued by a client. -/
inductive RegOp
  | register (srv : RegService)
  | unregister (nspace name : GoStr)

/-- Apply one mutation (the state part). -/
def applyRegOp (st : RegState) : RegOp → RegState
  | .register srv => (Register st srv).2
  | .unregister nspace name => Unregister st nspace name

/-- The registry after a mutation sequence from a fresh registry. -/
def applyRegOps (root : GoStr) (ops : List RegOp) : RegState :=
  ops.foldl applyRegOp (NewRegistry root)

/-- All services stored in a namespace map. -/
def servicesOf (m : List (GoStr × List (GoStr × RegService))) :
    List RegService :=
  (m.map fun e => e.2.map Prod.snd).flatten

/-- All services registered in the registry. -/
def allServices (st : RegState) : List RegService :=
  servicesOf st.namespaces

/-- C9: `Subscribe` on any registry produced by the constructor panics
with a `nil`-map assignment instead of returning a usable stream — the
`listeners` map is never initialised (the repository's own test
subscribes with buffer 1024 and replay on, expecting a stream). -/
theorem claim9_subscribe_nil_map :
    Subscribe (NewRegistry "localhost".data) 1024 true =
      .error .nilMapAssignment ∧
    Subscribe (NewRegistry []) 16 false = .error .nilMapAssignment :=
  ⟨rfl, rfl⟩

theorem aFind_mem {β : Type} (m : List (GoStr × β)) (k : GoStr) (v : β)
    (h : aFind m k = some v) : (k, v) ∈ m := by
  induction m with
  | nil => cases h
  | cons e rest ih =>
    obtain ⟨k1, v1⟩ := e
    rw [aFind] at h
    by_cases h1 : k1 = k
    · rw [if_pos h1] at h
      obtain rfl := Option.some.inj h
      rw [← h1]
      exact List.mem_cons_self _ _
    · rw [if_neg h1] at h
      exact List.mem_cons_of_mem _ (ih h)

theorem goHasSuffix_append (s t : GoStr) :
    goHasSuffix (s ++ t) t = true := by
  rw [goHasSuffix, List.isSuffixOf_iff_suffix]
  exact List.suffix_append s t

theorem normalizeDomain_idem (root d : GoStr) :
    normalizeDomain root (normalizeDomain root d) = normalizeDomain root d := by
  by_cases hroot : root = []
  · simp [normalizeDomain, hroot]
  · by_cases hsuf : goHasSuffix d ('.' :: root)
    · have hin : normalizeDomain root d = d := by
        rw [normalizeDomain, if_neg]
        rintro ⟨_, hc⟩
        exact hc hsuf
      rw [hin]
      exact hin
    · have hin : normalizeDomain root d = d ++ '.' :: root := by
        rw [normalizeDomain, if_pos ⟨hroot, hsuf⟩]
      rw [hin, normalizeDomain, if_neg]
      rintro ⟨_, hc⟩
      exact hc (by rw [goHasSuffix_append])

theorem normalizeDomain_ne_nil (root d : GoStr) (hd : d ≠ []) :
    normalizeDomain root d ≠ [] := by
  rw [normalizeDomain]
  split
  · simp
  · exact hd

theorem getDomain_ne_nil (root : GoStr) (srv : RegService) :
    getDomain root srv ≠ [] := by
  rw [getDomain]
  apply normalizeDomain_ne_nil
  by_cases h : srv.domain = []
  · rw [if_pos h]
    simp
  · rw [if_neg h]
    exact h

/-- Stamping is stable: the canonical domain of a stamped service is its
stamped domain. -/
theorem getDomain_stamped (root : GoStr) (srv : RegService) :
    getDomain root { srv with domain := getDomain root srv } =
      getDomain root srv := by
  have h1 := getDomain_ne_nil root srv
  show normalizeDomain root
    (if getDomain root srv = [] then _ else getDomain root srv) = _
  rw [if_neg h1, getDomain]
  exact normalizeDomain_idem root _

theorem servicesOf_cons (e : GoStr × List (GoStr × RegService))
    (rest : List (GoStr × List (GoStr × RegService))) :
    servicesOf (e :: rest) = e.2.map Prod.snd ++ servicesOf rest := by
  rw [servicesOf, List.map_cons, List.flatten_cons]
  rfl

theorem servicesOf_append (m1 m2 : List (GoStr × List (GoStr × RegService))) :
    servicesOf (m1 ++ m2) = servicesOf m1 ++ servicesOf m2 := by
  rw [servicesOf, servicesOf, servicesOf, List.map_append,
    List.flatten_append]

/-- Registering a fresh name adds exactly one service, up to
permutation. -/
theorem servicesOf_insert (m : List (GoStr × List (GoStr × RegService)))
    (ns name : GoStr) (srv1 : RegService)
    (hname : aFind ((aFind m ns).getD []) name = none) :
    (servicesOf (aInsert m ns
      (aInsert ((aFind m ns).getD []) name srv1))).Perm
        (srv1 :: servicesOf m) := by
  induction m with
  | nil =>
    simp only [aFind, Option.getD_none] at hname ⊢
    rw [show aInsert ([] : List (GoStr × List (GoStr × RegService))) ns
      (aInsert [] name srv1) = [(ns, [(name, srv1)])] from rfl]
    rw [servicesOf_cons]
    exact List.Perm.refl _
  | cons e rest ih =>
    obtain ⟨k1, v1⟩ := e
    by_cases h1 : k1 = ns
    · have hfind : aFind ((k1, v1) :: rest) ns = some v1 := by
        rw [aFind, if_pos h1]
      rw [hfind, Option.getD_some] at hname
      rw [hfind, Option.getD_some, aInsert, if_pos h1, servicesOf_cons,
        servicesOf_cons]
      rw [aInsert_absent v1 name srv1 hname, List.map_append]
      simp only [List.map_cons, List.map_nil, List.append_assoc,
        List.singleton_append]
      exact List.perm_middle
    · have hfind : aFind ((k1, v1) :: rest) ns = aFind rest ns := by
        rw [aFind, if_neg h1]
      rw [hfind] at hname
      rw [hfind, aInsert, if_neg h1, servicesOf_cons, servicesOf_cons]
      have hp := (ih hname).append_left (v1.map Prod.snd)
      refine hp.trans ?_
      exact List.perm_middle

/-- Unregistering a found name removes exactly one service, up to
permutation. -/
theorem servicesOf_erase (m : List (GoStr × List (GoStr × RegService)))
    (ns name : GoStr) (services : List (GoStr × RegService))
    (srv : RegService) (hfind : aFind m ns = some services)
    (hsrv : aFind services name = some srv)
    (hnodup : (services.map Prod.fst).Nodup) :
    (servicesOf m).Perm
      (srv :: servicesOf (aInsert m ns (aErase services name))) := by
  induction m with
  | nil => cases hfind
  | cons e rest ih =>
    obtain ⟨k1, v1⟩ := e
    rw [aFind] at hfind
    by_cases h1 : k1 = ns
    · rw [if_pos h1] at hfind
      obtain rfl := Option.some.inj hfind
      rw [aInsert, if_pos h1, servicesOf_cons, servicesOf_cons]
      have hperm : (v1.map Prod.snd).Perm
          (srv :: (aErase v1 name).map Prod.snd) := by
        have := (perm_cons_aErase v1 name srv hsrv hnodup).map Prod.snd
        simpa using this
      have := hperm.append_right (servicesOf rest)
      simpa using this
    · rw [if_neg h1] at hfind
      rw [aInsert, if_neg h1, servicesOf_cons, servicesOf_cons]
      have hp := (ih hfind).append_left (v1.map Prod.snd)
      refine hp.trans ?_
      exact List.perm_middle

theorem mem_servicesOf (m : List (GoStr × List (GoStr × RegService)))
    (ns name : GoStr) (services : List (GoStr × RegService))
    (srv : RegService) (hfind : aFind m ns = some services)
    (hsrv : aFind services name = some srv) : srv ∈ servicesOf m := by
  have h1 : (ns, services) ∈ m := aFind_mem _ _ _ hfind
  have h2 : (name, srv) ∈ services := aFind_mem _ _ _ hsrv
  rw [servicesOf, List.mem_flatten]
  exact ⟨services.map Prod.snd,
    List.mem_map_of_mem (fun e => e.2.map Prod.snd) h1,
    List.mem_map_of_mem Prod.snd h2⟩

theorem Register_domainUsed (st : RegState) (srv : RegService)
    (v : RegService)
    (hd : aFind st.byDomain (getDomain st.rootDomain srv) = some v) :
    Register st srv = (.error .serviceDomainAlreadyUsed, st) := by
  simp only [Register, hd]

theorem Register_nameUsed (st : RegState) (srv : RegService)
    (v : RegService)
    (hd : aFind st.byDomain (getDomain st.rootDomain srv) = none)
    (hn : aFind ((aFind st.namespaces srv.nspace).getD []) srv.name =
      some v) :
    Register st srv = (.error .serviceAlreadyRegistered, st) := by
  simp only [Register, hd, hn]

theorem Register_fresh (st : RegState) (srv : RegService)
    (hd : aFind st.byDomain (getDomain st.rootDomain srv) = none)
    (hn : aFind ((aFind st.namespaces srv.nspace).getD []) srv.name =
      none) :
    Register st srv = (.ok (), { st with
      namespaces := aInsert st.namespaces srv.nspace
        (aInsert ((aFind st.namespaces srv.nspace).getD []) srv.name
          { srv with domain := getDomain st.rootDomain srv }),
      byDomain := aInsert st.byDomain (getDomain st.rootDomain srv)
        { srv with domain := getDomain st.rootDomain srv } }) := by
  simp only [Register, hd, hn]

theorem Unregister_noNamespace (st : RegState) (ns name : GoStr)
    (h1 : aFind st.namespaces ns = none) : Unregister st ns name = st := by
  simp only [Unregister, h1]

theorem Unregister_noName (st : RegState) (ns name : GoStr)
    (services : List (GoStr × RegService))
    (h1 : aFind st.namespaces ns = some services)
    (h2 : aFind services name = none) : Unregister st ns name = st := by
  simp only [Unregister, h1, h2]

theorem Unregister_found (st : RegState) (ns name : GoStr)
    (services : List (GoStr × RegService)) (srv : RegService)
    (h1 : aFind st.namespaces ns = some services)
    (h2 : aFind services name = some srv) :
    Unregister st ns name = { st with
      namespaces := aInsert st.namespaces ns (aErase services name),
      byDomain := aErase st.byDomain (getDomain st.rootDomain srv) } := by
  simp only [Unregister, h1, h2]

/-- The registry's internal consistency: distinct keys, globally unique
service domains, the domain map covering every stored service, and every
stored service stamped with its own canonical domain. -/
structure RegWF (st : RegState) : Prop where
  byKeysNodup : (st.byDomain.map Prod.fst).Nodup
  svcKeysNodup : ∀ e ∈ st.namespaces, (e.2.map Prod.fst).Nodup
  domainsNodup : ((allServices st).map fun s => s.domain).Nodup
  covered : ∀ srv ∈ allServices st,
    (aFind st.byDomain srv.domain).isSome = true
  stamped : ∀ srv ∈ allServices st,
    getDomain st.rootDomain srv = srv.domain

theorem register_wf (st : RegState) (srv : RegService) (h : RegWF st) :
    RegWF (Register st srv).2 := by
  cases hd : aFind st.byDomain (getDomain st.rootDomain srv) with
  | some v =>
    rw [Register_domainUsed st srv v hd]
    exact h
  | none =>
    cases hn : aFind ((aFind st.namespaces srv.nspace).getD [])
        srv.name with
    | some v =>
      rw [Register_nameUsed st srv v hd hn]
      exact h
    | none =>
      rw [Register_fresh st srv hd hn]
      have hperm : (servicesOf (aInsert st.namespaces srv.nspace
          (aInsert ((aFind st.namespaces srv.nspace).getD []) srv.name
            { srv with domain := getDomain st.rootDomain srv }))).Perm
          ({ srv with domain := getDomain st.rootDomain srv } ::
            allServices st) :=
        servicesOf_insert st.namespaces srv.nspace srv.name _ hn
      constructor
      · show ((aInsert st.byDomain (getDomain st.rootDomain srv)
          { srv with domain := getDomain st.rootDomain srv }).map
            Prod.fst).Nodup
        rw [aInsert_absent _ _ _ hd, List.map_append]
        simp only [List.map_cons, List.map_nil]
        rw [List.nodup_append]
        refine ⟨h.byKeysNodup, List.nodup_singleton _, ?_⟩
        intro x hx hmem
        obtain rfl : x = getDomain st.rootDomain srv :=
          List.mem_singleton.mp hmem
        exact (aFind_eq_none_notMem _ _ hd) hx
      · intro e he
        rcases mem_aInsert _ _ _ _ he with heq | hrest
        · rw [heq]
          show ((aInsert ((aFind st.namespaces srv.nspace).getD [])
            srv.name { srv with domain := getDomain st.rootDomain srv
              }).map Prod.fst).Nodup
          rw [aInsert_absent _ _ _ hn, List.map_append]
          simp only [List.map_cons, List.map_nil]
          rw [List.nodup_append]
          refine ⟨?_, List.nodup_singleton _, ?_⟩
          · cases hfind : aFind st.namespaces srv.nspace with
            | none => simp
            | some sv =>
              rw [Option.getD_some]
              exact h.svcKeysNodup (srv.nspace, sv) (aFind_mem _ _ _ hfind)
          · intro x hx hmem
            obtain rfl : x = srv.name := List.mem_singleton.mp hmem
            exact (aFind_eq_none_notMem _ _ hn) hx
        · exact h.svcKeysNodup e hrest
      · show ((servicesOf (aInsert st.namespaces srv.nspace _)).map
          fun s => s.domain).Nodup
        rw [(hperm.map fun s => s.domain).nodup_iff]
        rw [List.map_cons, List.nodup_cons]
        refine ⟨?_, h.domainsNodup⟩
        intro hmem
        obtain ⟨s, hs, hsd⟩ := List.mem_map.mp hmem
        have hc := h.covered s hs
        rw [hsd] at hc
        show False
        rw [show ({ srv with domain := getDomain st.rootDomain srv
          } : RegService).domain = getDomain st.rootDomain srv from rfl,
          hd] at hc
        cases hc
      · intro s hs
        have hs2 := hperm.mem_iff.mp hs
        rcases List.mem_cons.mp hs2 with heq | hold
        · rw [heq]
          show (aFind (aInsert st.byDomain (getDomain st.rootDomain srv)
            _) (getDomain st.rootDomain srv)).isSome = true
          rw [aFind_aInsert_self]
          rfl
        · have hc := h.covered s hold
          have hne : s.domain ≠ getDomain st.rootDomain srv := by
            intro hcon
            rw [hcon, hd] at hc
            cases hc
          show (aFind (aInsert st.byDomain (getDomain st.rootDomain srv)
            _) s.domain).isSome = true
          rw [aFind_aInsert_ne _ _ _ _ hne]
          exact hc
      · intro s hs
        have hs2 := hperm.mem_iff.mp hs
        rcases List.mem_cons.mp hs2 with heq | hold
        · rw [heq]
          exact getDomain_stamped st.rootDomain srv
        · exact h.stamped s hold

theorem unregister_wf (st : RegState) (ns name : GoStr) (h : RegWF st) :
    RegWF (Unregister st ns name) := by
  cases h1 : aFind st.namespaces ns with
  | none =>
    rw [Unregister_noNamespace st ns name h1]
    exact h
  | some services =>
    cases h2 : aFind services name with
    | none =>
      rw [Unregister_noName st ns name services h1 h2]
      exact h
    | some srv =>
      rw [Unregister_found st ns name services srv h1 h2]
      have hsvcnodup : (services.map Prod.fst).Nodup :=
        h.svcKeysNodup (ns, services) (aFind_mem _ _ _ h1)
      have hperm : (allServices st).Perm
          (srv :: servicesOf (aInsert st.namespaces ns
            (aErase services name))) :=
        servicesOf_erase st.namespaces ns name services srv h1 h2
          hsvcnodup
      have hmem : srv ∈ allServices st :=
        mem_servicesOf st.namespaces ns name services srv h1 h2
      have hstamp : getDomain st.rootDomain srv = srv.domain :=
        h.stamped srv hmem
      have hdp := hperm.map fun s => s.domain
      have hnodup2 : ((srv :: servicesOf (aInsert st.namespaces ns
          (aErase services name))).map fun s => s.domain).Nodup :=
        hdp.nodup_iff.mp h.domainsNodup
      rw [List.map_cons, List.nodup_cons] at hnodup2
      constructor
      · show ((aErase st.byDomain (getDomain st.rootDomain srv)).map
          Prod.fst).Nodup
        exact ((aErase_sublist st.byDomain _).map Prod.fst).nodup
          h.byKeysNodup
      · intro e he
        rcases mem_aInsert _ _ _ _ he with heq | hrest
        · rw [heq]
          exact ((aErase_sublist services name).map Prod.fst).nodup
            hsvcnodup
        · exact h.svcKeysNodup e hrest
      · exact hnodup2.2
      · intro s hs
        have hold : s ∈ allServices st :=
          hperm.mem_iff.mpr (List.mem_cons_of_mem _ hs)
        have hc := h.covered s hold
        have hne : s.domain ≠ srv.domain := by
          intro hcon
          apply hnodup2.1
          rw [← hcon]
          exact List.mem_map_of_mem _ hs
        show (aFind (aErase st.byDomain (getDomain st.rootDomain srv))
          s.domain).isSome = true
        rw [hstamp, aFind_aErase_ne _ _ _ hne]
        exact hc
      · intro s hs
        have hold : s ∈ allServices st :=
          hperm.mem_iff.mpr (List.mem_cons_of_mem _ hs)
        exact h.stamped s hold

theorem newRegistry_wf (root : GoStr) : RegWF (NewRegistry root) := by
  constructor <;> simp [NewRegistry, allServices, servicesOf]

theorem applyRegOp_wf (st : RegState) (op : RegOp) (h : RegWF st) :
    RegWF (applyRegOp st op) := by
  cases op with
  | register srv => exact register_wf st srv h
  | unregister ns name => exact unregister_wf st ns name h

theorem applyRegOps_wf (root : GoStr) (ops : List RegOp) :
    RegWF (applyRegOps root ops) := by
  rw [applyRegOps]
  have key : ∀ st : RegState, RegWF st →
      RegWF (ops.foldl applyRegOp st) := by
    induction ops with
    | nil => exact fun st hs => hs
    | cons op rest ih => exact fun st hs => ih _ (applyRegOp_wf st op hs)
  exact key (NewRegistry root) (newRegistry_wf root)

/-- Operation `Register` as the claim words it: the domain-in-use error when the
computed canonical domain already maps to a service, the name-in-use error
when the (namespace, name) pair is already registered, and on success the
service stored under its canonical stamped domain in both maps; on either
error the registry maps are unchanged. -/
def registerSpec (st : RegState) (srv : RegService) :
    Except RegError Unit × RegState :=
  let domain := getDomain st.rootDomain srv
  if (aFind st.byDomain domain).isSome then
    (.error .serviceDomainAlreadyUsed, st)
  else if (aFind ((aFind st.namespaces srv.nspace).getD [])
      srv.name).isSome then
    (.error .serviceAlreadyRegistered, st)
  else
    (.ok (), { st with
      namespaces := aInsert st.namespaces srv.nspace
        (aInsert ((aFind st.namespaces srv.nspace).getD []) srv.name
          { srv with domain := domain }),
      byDomain := aInsert st.byDomain domain
        { srv with domain := domain } })

/-- C2: `Register` returns the domain-in-use error when the canonical
domain is taken, the name-in-use error when the (namespace, name) pair is
taken, stamps the canonical domain on success, changes no registry map on
either error (it returns the state unchanged), and consequently after any
sequence of Register/Unregister operations from a fresh registry the
registered services' domains — and the domain map's keys — are globally
unique. -/
theorem claim2_register_errors_and_unique_domains :
    (∀ (st : RegState) (srv : RegService),
      Register st srv = registerSpec st srv) ∧
    (∀ (root : GoStr) (ops : List RegOp),
      ((allServices (applyRegOps root ops)).map fun s => s.domain).Nodup ∧
      ((applyRegOps root ops).byDomain.map Prod.fst).Nodup) := by
  constructor
  · intro st srv
    cases hd : aFind st.byDomain (getDomain st.rootDomain srv) with
    | some v =>
      rw [Register_domainUsed st srv v hd]
      simp only [registerSpec, hd]
      rfl
    | none =>
      cases hn : aFind ((aFind st.namespaces srv.nspace).getD [])
          srv.name with
      | some v =>
        rw [Register_nameUsed st srv v hd hn]
        simp only [registerSpec, hd, hn]
        rfl
      | none =>
        rw [Register_fresh st srv hd hn]
        simp only [registerSpec, hd, hn]
        rfl
  · intro root ops
    have hwf := applyRegOps_wf root ops
    exact ⟨hwf.domainsNodup, hwf.byKeysNodup⟩

/-! ## Backup pipeline: `VolumeStorage.Restore` and `FileBackup.Restore` -/

/-- Errors in the backup pipeline; `backupNotExists` is the distinguished
`ErrBackupNotExists` the backend contract uses to signal absence. -/
inductive StorageErr
  | backupNotExists
  | other (msg : String)
deriving DecidableEq

/-- The outside world consulted by `VolumeStorage.Restore`, step by step:
volume inspection/creation via the container runtime, temp-file creation,
the backend download, decryption, and the tar-extraction helper
container. Each is an external collaborator modelled as its outcome. -/
structure RestoreWorld where
  ensureVolumes : Except StorageErr Unit
  createTempEncrypted : Except StorageErr Unit
  providerRestore : Except StorageErr Unit
  createTempRaw : Except StorageErr Unit
  decrypt : Except StorageErr Unit
  extract : Except StorageErr Unit

/-- Method `VolumeStorage.Restore` (core/storage): ensure the volumes exist,
download the encrypted artefact, and — only when the backend did not
report `ErrBackupNotExists` — decrypt and extract into the volumes. The
boolean reports whether the extraction container ran (i.e. whether any
volume contents were written). -/
def VolumeStorage.Restore (w : RestoreWorld) :
    Except StorageErr Unit × Bool :=
  match w.ensureVolumes with
  | .error e => (.error e, false)
  | .ok _ =>
    match w.createTempEncrypted with
    | .error e => (.error e, false)
    | .ok _ =>
      match w.providerRestore with
      | .error e =>
        if e = .backupNotExists then (.ok (), false)
        else (.error e, false)
      | .ok _ =>
        match w.createTempRaw with
        | .error e => (.error e, false)
        | .ok _ =>
          match w.decrypt with
          | .error e => (.error e, false)
          | .ok _ => (w.extract, true)

/-- Method `FileBackup.Restore` (backup/filebackup): a missing artefact file
(`os.ErrNotExist` on open) is reported as the distinguished
`ErrBackupNotExists`; otherwise the copy outcome is returned. -/
def FileBackup.Restore (fileExists : Bool)
    (copyResult : Except StorageErr Unit) : Except StorageErr Unit :=
  if fileExists = false then .error .backupNotExists
  else copyResult

/-- C8: whenever the backend reports the distinguished backup-not-exists
error (as `FileBackup.Restore` does for a missing artefact), and the
preparatory steps succeeded so the backend was actually consulted,
`Restore` returns success and never runs the extraction container: the
named volumes' contents are untouched. -/
theorem claim8_restore_absence_is_success (w : RestoreWorld)
    (h1 : w.ensureVolumes = .ok ())
    (h2 : w.createTempEncrypted = .ok ())
    (h3 : w.providerRestore = .error .backupNotExists) :
    VolumeStorage.Restore w = (.ok (), false) ∧
    (∀ copyResult : Except StorageErr Unit,
      FileBackup.Restore false copyResult = .error .backupNotExists) := by
  constructor
  · rw [VolumeStorage.Restore, h1, h2, h3]
    rfl
  · intro copyResult
    rfl

/-- C8 witness: the concrete world in which the backend answers
backup-not-exists. -/
theorem claim8_restore_absence_is_success_witness :
    VolumeStorage.Restore
        ⟨.ok (), .ok (), .error .backupNotExists, .ok (), .ok (), .ok ()⟩ =
      (.ok (), false) ∧
    (∀ copyResult : Except StorageErr Unit,
      FileBackup.Restore false copyResult = .error .backupNotExists) :=
  claim8_restore_absence_is_success
    ⟨.ok (), .ok (), .error .backupNotExists, .ok (), .ok (), .ok ()⟩
    rfl rfl rfl

end GitPipe
